import Mathlib

/-!
Shallow embedding of the `pnlkit` PnL engine (src/pnlkit) in Lean 4.

Modelling conventions:
* Python `Decimal` quantities and prices become `ℚ` (the engine only adds,
  subtracts, multiplies and compares them, all exact on `Decimal`).
* `datetime` timestamps become `ℤ` (nanosecond ticks, as pandas uses);
  `timedelta(minutes=1)` is the constant `oneMinute`.
* `collections.deque` becomes `List` (head = left end of the deque).
* The mutating generator `Strategy.take` becomes a function returning the
  yielded `(take, lot)` pairs together with the queue left after the loop.
* The `Dict[str, SymbolState]` becomes an insertion-ordered association
  list; `dict.setdefault` inserts the default at the end, updates keep the
  entry in place, exactly as Python dicts do.
-/

namespace PnlKit

/-- `Side` from src/pnlkit/types.py. -/
inductive Side where
  | buy
  | sell
deriving DecidableEq, Repr

/-- `Action` from src/pnlkit/types.py. -/
inductive Action where
  | sent
  | placed
  | filled
  | cancelling
  | cancelled
deriving DecidableEq, Repr

/-- `Lot` from src/pnlkit/engine.py: an open position lot (long or short). -/
structure Lot where
  qty : ℚ
  price : ℚ
  ts_open : ℤ
deriving DecidableEq, Repr

/-- `Fill` from src/pnlkit/models.py: normalized execution event. -/
structure Fill where
  ts : ℤ
  product : String
  side : Side
  price : ℚ
  qty : ℚ
deriving DecidableEq, Repr

/-- `ActionEvent` from src/pnlkit/models.py. -/
structure ActionEvent where
  ts : ℤ
  action : Action
  trade_px : Option ℚ := none
  trade_amt : Option ℚ := none
deriving DecidableEq, Repr

/-- `Order` from src/pnlkit/models.py. -/
structure Order where
  order_id : String
  product : String
  side : Side
  events : List ActionEvent
deriving DecidableEq, Repr

/-- `SymbolState` from src/pnlkit/engine.py: per-symbol engine state. -/
structure SymbolState where
  long_lots : List Lot := []
  short_lots : List Lot := []
  realized_pnl : ℚ := 0
  rpnl_hist : List ℚ := []
  upnl_hist : List ℚ := []
  last_price : Option ℚ := none
deriving DecidableEq, Repr

/-- `SymbolState.unrealized`: mark-to-market of open lots against
`last_price`; zero when no price is known yet. -/
def SymbolState.unrealized (st : SymbolState) : ℚ :=
  match st.last_price with
  | none => 0
  | some lp =>
      (st.long_lots.map (fun l => (lp - l.price) * l.qty)).sum +
      (st.short_lots.map (fun s => (s.price - lp) * s.qty)).sum

/-! ## Lot-selection strategies (src/pnlkit/strategies.py)

Both selectors run the loop
`while need > 0 and lots: take = min(lot.qty, need); yield take, lot;
lot.qty -= take; need -= take; if lot.qty == 0: pop`.
`takeHead` models one pass of that loop consuming from the head of the
list.  When the head lot survives (`lot.qty - take ≠ 0`) the Python loop
necessarily exits on its next `need > 0` test: `take = min(lot.qty, need)`
differs from `lot.qty` only when `take = need`, so `need` has just become
zero.  Hence returning immediately in that branch is exact. -/

def takeHead : List Lot → ℚ → List (ℚ × Lot) × List Lot
  | [], _ => ([], [])
  | lot :: rest, need =>
    if need ≤ 0 then ([], lot :: rest)
    else
      -- `take = min(lot.qty, need)`, spelled out so that it evaluates
      let t := if lot.qty ≤ need then lot.qty else need
      if lot.qty - t = 0 then
        let res := takeHead rest (need - t)
        ((t, lot) :: res.1, res.2)
      else
        ([(t, lot)], { lot with qty := lot.qty - t } :: rest)

/-- `FIFOSelector.take`: consume from the head (oldest lot) first. -/
def takeFIFO (lots : List Lot) (need : ℚ) : List (ℚ × Lot) × List Lot :=
  takeHead lots need

/-- `LIFOSelector.take`: consume from the tail (newest lot) first.  Popping
from the right of the deque is consuming from the head of the reversed
list. -/
def takeLIFO (lots : List Lot) (need : ℚ) : List (ℚ × Lot) × List Lot :=
  let res := takeHead lots.reverse need
  (res.1, res.2.reverse)

/-- The two registered strategies (`_STRATEGIES` in strategies.py). -/
inductive Strategy where
  | fifo
  | lifo
deriving DecidableEq, Repr

def Strategy.take : Strategy → List Lot → ℚ → List (ℚ × Lot) × List Lot
  | .fifo, lots, need => takeFIFO lots need
  | .lifo, lots, need => takeLIFO lots need

/-! ## The PnL engine (src/pnlkit/engine.py) -/

/-- One entry of `PnLEngine._pending_initial_positions` (always stored with
`timestamp = None`, so no timestamp field is needed). -/
structure PendingInitial where
  symbol : String
  qty : ℚ
  avg_price : ℚ
deriving DecidableEq, Repr

/-- `PnLEngine.__init__`: strategy, per-symbol state dict, portfolio
realized total, pending initial positions. -/
structure Engine where
  strategy : Strategy
  state : List (String × SymbolState) := []
  realized_total : ℚ := 0
  pending : List PendingInitial := []
deriving DecidableEq, Repr

/-- `PnLEngine(strategy)`. -/
def Engine.init (strat : Strategy) : Engine :=
  { strategy := strat, state := [], realized_total := 0, pending := [] }

/-- Dict read with default: `self.state.setdefault(sym, SymbolState())`
read off before mutation; an absent symbol behaves as a fresh
`SymbolState()`. -/
def getSym : List (String × SymbolState) → String → SymbolState
  | [], _ => {}
  | (k, v) :: rest, sym => if k = sym then v else getSym rest sym

/-- Dict write: update the existing entry in place (first match), or append
a new entry at the end — Python dict insertion-order semantics. -/
def setSym : List (String × SymbolState) → String → SymbolState →
    List (String × SymbolState)
  | [], sym, st => [(sym, st)]
  | (k, v) :: rest, sym, st =>
      if k = sym then (sym, st) :: rest else (k, v) :: setSym rest sym st

/-- `PnLEngine.unrealized_total`: sum of `st.unrealized()` over all symbol
states in the dict. -/
def Engine.unrealized_total (e : Engine) : ℚ :=
  (e.state.map (fun p => p.2.unrealized)).sum

/-- Per-match realized delta: `(f.price - lot.price) * take` on a SELL,
`(lot.price - f.price) * take` on a BUY. -/
def matchDelta (side : Side) (fillPrice : ℚ) (p : ℚ × Lot) : ℚ :=
  match side with
  | .sell => (fillPrice - p.2.price) * p.1
  | .buy => (p.2.price - fillPrice) * p.1

/-- The 8-tuple returned by `PnLEngine.apply_fill`, with the names under
which `process_fills` unpacks it:
`(realized_total, rp_total_symbol, rp, up_total, up, gross_total,
gross_total_symbol, gross)`. -/
structure FillRet where
  realized_total : ℚ
  rp_total_symbol : ℚ
  rp : ℚ
  up_total : ℚ
  up : ℚ
  gross_total : ℚ
  gross_total_symbol : ℚ
  gross : ℚ
deriving DecidableEq, Repr

/-- `PnLEngine.apply_fill`.  The matching loop is rendered by `take` plus
folds over the yielded pairs: the realized totals accumulate every
per-match delta, while the local variable `pnl` is *reassigned* each
iteration (`pnl = ...`, not `+=`), so the value returned as `rp` is the
delta of the last matched lot only (`0`, the initial value, when no lot
matched).  `left` ends as `f.qty` minus the total taken quantity. -/
def Engine.applyFill (e : Engine) (f : Fill) : Engine × FillRet :=
  let st0 := getSym e.state f.product
  let st1 := { st0 with last_price := some f.price }
  let queue := match f.side with
    | .sell => st1.long_lots
    | .buy => st1.short_lots
  let res := e.strategy.take queue f.qty
  let deltas := res.1.map (matchDelta f.side f.price)
  let pnl : ℚ := deltas.getLastD 0
  let realized_total' := e.realized_total + deltas.sum
  let st2 := { st1 with
    realized_pnl := st1.realized_pnl + deltas.sum
    rpnl_hist := st1.rpnl_hist ++ deltas }
  let left := f.qty - (res.1.map Prod.fst).sum
  let st3 := match f.side with
    | .sell =>
        let st := { st2 with long_lots := res.2 }
        if 0 < left then
          { st with short_lots :=
              st.short_lots ++ [⟨left, f.price, f.ts⟩] }
        else st
    | .buy =>
        let st := { st2 with short_lots := res.2 }
        if 0 < left then
          { st with long_lots :=
              st.long_lots ++ [⟨left, f.price, f.ts⟩] }
        else st
  let e' := { e with
    state := setSym e.state f.product st3
    realized_total := realized_total' }
  let up_total := e'.unrealized_total
  let up := st3.unrealized
  let st4 := { st3 with upnl_hist := st3.upnl_hist ++ [up] }
  let e'' := { e' with state := setSym e'.state f.product st4 }
  (e'', { realized_total := realized_total'
          rp_total_symbol := st3.realized_pnl
          rp := pnl
          up_total := up_total
          up := up
          gross_total := realized_total' + up_total
          gross_total_symbol := st3.realized_pnl + up
          gross := pnl + up })

/-- `PnLEngine.set_initial_position` with an explicit timestamp: clear both
queues, materialize one lot according to the sign of `qty`, and set the
last price when `avg_price > 0`. -/
def Engine.setInitialPositionAt (e : Engine) (symbol : String) (qty : ℚ)
    (avg_price : ℚ) (timestamp : ℤ) : Engine :=
  let st := getSym e.state symbol
  let st := { st with long_lots := [], short_lots := [] }
  let st :=
    if 0 < qty then
      { st with long_lots := [⟨qty, avg_price, timestamp⟩] }
    else if qty < 0 then
      { st with short_lots := [⟨-qty, avg_price, timestamp⟩] }
    else st
  let st := if 0 < avg_price then { st with last_price := some avg_price } else st
  { e with state := setSym e.state symbol st }

/-- `PnLEngine.set_initial_position`: with no timestamp the position is
queued on `_pending_initial_positions` for later resolution. -/
def Engine.setInitialPosition (e : Engine) (symbol : String) (qty : ℚ)
    (avg_price : ℚ) (timestamp : Option ℤ) : Engine :=
  match timestamp with
  | none => { e with pending := e.pending ++ [⟨symbol, qty, avg_price⟩] }
  | some ts => e.setInitialPositionAt symbol qty avg_price ts

/-- `timedelta(minutes=1)` in nanosecond ticks. -/
def oneMinute : ℤ := 60000000000

/-- `min(f.ts for f in fills)` (0 on the empty list, which the caller
never passes). -/
def firstFillTime : List Fill → ℤ
  | [] => 0
  | f :: rest => rest.foldl (fun m g => min m g.ts) f.ts

/-- The pending-position phase at the top of `PnLEngine.process_fills`:
when both the pending list and the fill batch are non-empty, apply every
pending position with timestamp `first fill time − 1 minute`, then clear
the pending list. -/
def Engine.resolvePending (e : Engine) (fills : List Fill) : Engine :=
  match e.pending, fills with
  | _ :: _, _ :: _ =>
      let initial_timestamp := firstFillTime fills - oneMinute
      let e' := e.pending.foldl
        (fun acc p => acc.setInitialPositionAt p.symbol p.qty p.avg_price
          initial_timestamp) e
      { e' with pending := [] }
  | _, _ => e

/-- Stable insertion into a ts-sorted list: the new element goes after all
elements with `ts ≤` its own. -/
def insertByTs (f : Fill) : List Fill → List Fill
  | [] => [f]
  | g :: rest => if g.ts ≤ f.ts then g :: insertByTs f rest else f :: g :: rest

/-- `sorted(fills, key=lambda x: x.ts)`: Python's sort is stable, and any
stable sort by `ts` computes the same list as this insertion sort. -/
def sortByTs (fills : List Fill) : List Fill :=
  fills.foldl (fun acc f => insertByTs f acc) []

/-- One row of the tidy time series built by `process_fills` (the dict
appended to `rows`, field for field). -/
structure Row where
  ts : ℤ
  symbol : String
  realized_total : ℚ
  unrealized_total : ℚ
  gross_total : ℚ
  realized_symbol : ℚ
  unrealized_symbol : ℚ
  gross_symbol : ℚ
  realized_total_symbol : ℚ
  gross_total_symbol : ℚ
deriving DecidableEq, Repr

/-- `PnLEngine.process_fills`: resolve pending initial positions, then
apply the fills in ascending-timestamp order, collecting one row per
fill.  Returns the final engine alongside the time series (the engine is
`self` after the call; the rows are `PnLResult.df`). -/
def Engine.processFills (e : Engine) (fills : List Fill) :
    Engine × List Row :=
  let e := e.resolvePending fills
  (sortByTs fills).foldl
    (fun acc f =>
      let step := acc.1.applyFill f
      (step.1, acc.2 ++
        [{ ts := f.ts
           symbol := f.product
           realized_total := step.2.realized_total
           unrealized_total := step.2.up_total
           gross_total := step.2.gross_total
           realized_symbol := step.2.rp
           unrealized_symbol := step.2.up
           gross_symbol := step.2.gross
           realized_total_symbol := step.2.rp_total_symbol
           gross_total_symbol := step.2.gross_total_symbol }]))
    (e, [])

/-- `_snapshot_states()[sym]["realized_total"]` (the float cast is exact on
the values at stake): the symbol's cumulative realized PnL. -/
def Engine.snapshotRealized (e : Engine) (sym : String) : ℚ :=
  (getSym e.state sym).realized_pnl

/-- Fold applying a whole list of fills through `apply_fill`, keeping only
the engine (for reachability statements). -/
def applyFills (e : Engine) (fs : List Fill) : Engine :=
  fs.foldl (fun acc f => (acc.applyFill f).1) e

/-! ## Order reconstruction (src/pnlkit/io.py)

Grouping the CSV rows by `orderId` and stably sorting each group by
timestamp is done by pandas (out-of-scope log-parsing mechanics per the
spec); the embedding starts from the grouped, time-sorted rows of one
order. -/

/-- `_VALID_SEQUENCES` from src/pnlkit/io.py. -/
def validSequences : List (List Action) :=
  [[.sent, .placed, .filled],
   [.sent, .placed, .cancelling, .cancelled],
   [.placed, .filled],
   [.sent, .filled]]

/-- One `groupby("orderId")` group after the stable time sort: the order
id, the side/product taken from the first row, and the event rows. -/
structure RawOrderGroup where
  order_id : String
  product : String
  side : Side
  events : List ActionEvent
deriving DecidableEq, Repr

/-- The `Order(...)` built from a surviving group. -/
def mkOrder (g : RawOrderGroup) : Order :=
  { order_id := g.order_id, product := g.product, side := g.side,
    events := g.events }

/-- The validation loop of `read_orders_from_csv`: keep a group only when
its action-kind sequence is exactly one of `_VALID_SEQUENCES`; otherwise
skip the whole order (`continue`) and go on with the next group. -/
def reconstructOrders (groups : List RawOrderGroup) : List Order :=
  groups.filterMap fun g =>
    if (g.events.map ActionEvent.action) ∈ validSequences then
      some (mkOrder g)
    else none

/-- `orders_to_fills`: one `Fill` per `FILLED` event carrying both a trade
price and a trade quantity, then a stable sort by timestamp. -/
def ordersToFills (orders : List Order) : List Fill :=
  let fills := orders.flatMap fun o =>
    o.events.filterMap fun ev =>
      if ev.action = .filled then
        match ev.trade_px, ev.trade_amt with
        | some px, some amt =>
            some { ts := ev.ts, product := o.product, side := o.side,
                   price := px, qty := amt }
        | _, _ => none
      else none
  sortByTs fills

/-! ## Helper lemmas about the lot-selection loop -/

theorem takeHead_nil (need : ℚ) : takeHead [] need = ([], []) := rfl

theorem takeHead_nonpos (lots : List Lot) (need : ℚ) (h : need ≤ 0) :
    takeHead lots need = ([], lots) := by
  cases lots with
  | nil => rfl
  | cons lot rest => simp [takeHead, h]

theorem takeHead_cons_pop (lot : Lot) (rest : List Lot) (need : ℚ)
    (h1 : 0 < need) (h2 : lot.qty ≤ need) :
    takeHead (lot :: rest) need =
      ((lot.qty, lot) :: (takeHead rest (need - lot.qty)).1,
       (takeHead rest (need - lot.qty)).2) := by
  have hn : ¬ need ≤ 0 := not_le.mpr h1
  simp [takeHead, hn, h2]

theorem takeHead_cons_keep (lot : Lot) (rest : List Lot) (need : ℚ)
    (h1 : 0 < need) (h2 : need < lot.qty) :
    takeHead (lot :: rest) need =
      ([(need, lot)], { lot with qty := lot.qty - need } :: rest) := by
  have hn : ¬ need ≤ 0 := not_le.mpr h1
  have hq : ¬ lot.qty ≤ need := not_le.mpr h2
  have hne : lot.qty - need ≠ 0 := sub_ne_zero.mpr (ne_of_gt h2)
  simp [takeHead, hn, hq, hne]

theorem sum_qty_nonneg (lots : List Lot) (hpos : ∀ l ∈ lots, 0 < l.qty) :
    0 ≤ (lots.map Lot.qty).sum := by
  induction lots with
  | nil => simp
  | cons lot rest ih =>
      have h1 := hpos lot (List.mem_cons_self _ _)
      have h2 := ih (fun l hl => hpos l (List.mem_cons_of_mem _ hl))
      simp only [List.map_cons, List.sum_cons]
      linarith

theorem takeHead_sum_take (lots : List Lot) (need : ℚ)
    (hpos : ∀ l ∈ lots, 0 < l.qty) (hneed : 0 < need) :
    ((takeHead lots need).1.map Prod.fst).sum
      = min need ((lots.map Lot.qty).sum) := by
  induction lots generalizing need with
  | nil => simp [takeHead_nil, min_eq_right (le_of_lt hneed)]
  | cons lot rest ih =>
      have hrest : ∀ l ∈ rest, 0 < l.qty :=
        fun l hl => hpos l (List.mem_cons_of_mem _ hl)
      have hlot : 0 < lot.qty := hpos lot (List.mem_cons_self _ _)
      have hrsum : 0 ≤ (rest.map Lot.qty).sum := sum_qty_nonneg rest hrest
      rcases le_or_lt lot.qty need with h2 | h2
      · rw [takeHead_cons_pop lot rest need hneed h2]
        rcases lt_or_eq_of_le h2 with hlt | heq
        · have ih2 := ih (need - lot.qty) hrest (by linarith)
          simp only [List.map_cons, List.sum_cons]
          rw [ih2]
          rcases le_total (need - lot.qty) ((rest.map Lot.qty).sum) with hc | hc
          · rw [min_eq_left hc, min_eq_left (by linarith)]
            ring
          · rw [min_eq_right hc, min_eq_right (by linarith)]
        · rw [takeHead_nonpos rest (need - lot.qty) (by rw [← heq]; simp)]
          simp only [List.map_cons, List.sum_cons, List.map_nil, List.sum_nil,
            add_zero]
          rw [min_eq_left (by linarith)]
          exact heq
      · rw [takeHead_cons_keep lot rest need hneed h2]
        simp only [List.map_cons, List.sum_cons, List.map_nil, List.sum_nil,
          add_zero]
        rw [min_eq_left (by linarith)]

theorem takeHead_total (lots : List Lot) (need : ℚ) :
    ((takeHead lots need).2.map Lot.qty).sum
      = (lots.map Lot.qty).sum - ((takeHead lots need).1.map Prod.fst).sum := by
  induction lots generalizing need with
  | nil => simp [takeHead_nil]
  | cons lot rest ih =>
      rcases le_or_lt need 0 with hn | hn
      · simp [takeHead_nonpos _ _ hn]
      · rcases le_or_lt lot.qty need with h2 | h2
        · rw [takeHead_cons_pop lot rest need hn h2]
          simp only [List.map_cons, List.sum_cons]
          rw [ih (need - lot.qty)]
          ring
        · rw [takeHead_cons_keep lot rest need hn h2]
          simp only [List.map_cons, List.sum_cons, List.map_nil, List.sum_nil,
            add_zero]
          ring

theorem takeHead_queue_pos (lots : List Lot) (need : ℚ)
    (hpos : ∀ l ∈ lots, 0 < l.qty) :
    ∀ l ∈ (takeHead lots need).2, 0 < l.qty := by
  induction lots generalizing need with
  | nil => simp [takeHead_nil]
  | cons lot rest ih =>
      rcases le_or_lt need 0 with hn | hn
      · rw [takeHead_nonpos _ _ hn]
        exact hpos
      · rcases le_or_lt lot.qty need with h2 | h2
        · rw [takeHead_cons_pop _ _ _ hn h2]
          exact ih _ (fun l hl => hpos l (List.mem_cons_of_mem _ hl))
        · rw [takeHead_cons_keep _ _ _ hn h2]
          intro l hl
          rcases List.mem_cons.mp hl with rfl | hl
          · simpa using sub_pos.mpr h2
          · exact hpos l (List.mem_cons_of_mem _ hl)

theorem takeHead_empty_of_left_pos (lots : List Lot) (need : ℚ)
    (h : 0 < need - ((takeHead lots need).1.map Prod.fst).sum) :
    (takeHead lots need).2 = [] := by
  induction lots generalizing need with
  | nil => simp [takeHead_nil]
  | cons lot rest ih =>
      rcases le_or_lt need 0 with hn | hn
      · rw [takeHead_nonpos _ _ hn] at h
        simp only [List.map_nil, List.sum_nil, sub_zero] at h
        linarith
      · rcases le_or_lt lot.qty need with h2 | h2
        · rw [takeHead_cons_pop _ _ _ hn h2] at h ⊢
          simp only [List.map_cons, List.sum_cons] at h
          exact ih (need - lot.qty) (by linarith)
        · rw [takeHead_cons_keep _ _ _ hn h2] at h
          simp only [List.map_cons, List.sum_cons, List.map_nil, List.sum_nil,
            add_zero] at h
          linarith

theorem sum_map_reverse_qty (lots : List Lot) :
    (lots.reverse.map Lot.qty).sum = (lots.map Lot.qty).sum := by
  rw [List.map_reverse, List.sum_reverse]

theorem Strategy.take_nil (strat : Strategy) (need : ℚ) :
    strat.take [] need = ([], []) := by
  cases strat <;> rfl

theorem Strategy.take_nonpos (strat : Strategy) (lots : List Lot) (need : ℚ)
    (h : need ≤ 0) : strat.take lots need = ([], lots) := by
  cases strat with
  | fifo => exact takeHead_nonpos lots need h
  | lifo =>
      show takeLIFO lots need = ([], lots)
      rw [takeLIFO, takeHead_nonpos lots.reverse need h]
      simp

theorem Strategy.take_sum (strat : Strategy) (lots : List Lot) (need : ℚ)
    (hpos : ∀ l ∈ lots, 0 < l.qty) (hneed : 0 < need) :
    ((strat.take lots need).1.map Prod.fst).sum
      = min need ((lots.map Lot.qty).sum) := by
  cases strat with
  | fifo => exact takeHead_sum_take lots need hpos hneed
  | lifo =>
      show ((takeLIFO lots need).1.map Prod.fst).sum = _
      rw [takeLIFO]
      rw [takeHead_sum_take lots.reverse need
        (fun l hl => hpos l (List.mem_reverse.mp hl)) hneed]
      rw [sum_map_reverse_qty]

theorem Strategy.take_total (strat : Strategy) (lots : List Lot) (need : ℚ) :
    ((strat.take lots need).2.map Lot.qty).sum
      = (lots.map Lot.qty).sum - ((strat.take lots need).1.map Prod.fst).sum := by
  cases strat with
  | fifo => exact takeHead_total lots need
  | lifo =>
      show ((takeLIFO lots need).2.map Lot.qty).sum
        = _ - ((takeLIFO lots need).1.map Prod.fst).sum
      rw [takeLIFO]
      simp only
      rw [sum_map_reverse_qty, takeHead_total lots.reverse need,
        sum_map_reverse_qty]

theorem Strategy.take_queue_pos (strat : Strategy) (lots : List Lot) (need : ℚ)
    (hpos : ∀ l ∈ lots, 0 < l.qty) :
    ∀ l ∈ (strat.take lots need).2, 0 < l.qty := by
  cases strat with
  | fifo => exact takeHead_queue_pos lots need hpos
  | lifo =>
      intro l hl
      refine takeHead_queue_pos lots.reverse need
        (fun x hx => hpos x (List.mem_reverse.mp hx)) l ?_
      exact List.mem_reverse.mp hl

theorem Strategy.take_empty_of_left_pos (strat : Strategy) (lots : List Lot)
    (need : ℚ)
    (h : 0 < need - ((strat.take lots need).1.map Prod.fst).sum) :
    (strat.take lots need).2 = [] := by
  cases strat with
  | fifo => exact takeHead_empty_of_left_pos lots need h
  | lifo =>
      show (takeLIFO lots need).2 = []
      have h2 : (takeHead lots.reverse need).2 = [] :=
        takeHead_empty_of_left_pos lots.reverse need h
      rw [takeLIFO]
      simp [h2]

/-! ## Helper lemmas about the symbol-state dict -/

theorem getSym_setSym_self (s : List (String × SymbolState)) (k : String)
    (v : SymbolState) : getSym (setSym s k v) k = v := by
  induction s with
  | nil => simp [setSym, getSym]
  | cons p rest ih =>
      by_cases hk : p.1 = k
      · simp [setSym, getSym, hk]
      · simp [setSym, getSym, hk, ih]

theorem mem_setSym (s : List (String × SymbolState)) (k : String)
    (v : SymbolState) (p : String × SymbolState) (hp : p ∈ setSym s k v) :
    p ∈ s ∨ p = (k, v) := by
  induction s with
  | nil =>
      simp only [setSym, List.mem_singleton] at hp
      exact Or.inr hp
  | cons q rest ih =>
      by_cases hk : q.1 = k
      · simp only [setSym, hk, if_true, List.mem_cons] at hp
        rcases hp with rfl | hp
        · exact Or.inr rfl
        · exact Or.inl (List.mem_cons_of_mem _ hp)
      · simp only [setSym, hk, if_false, List.mem_cons] at hp
        rcases hp with rfl | hp
        · exact Or.inl (List.mem_cons_self _ _)
        · rcases ih hp with hin | heq
          · exact Or.inl (List.mem_cons_of_mem _ hin)
          · exact Or.inr heq

/-! ## The mutual-exclusion invariant (claim C3 machinery) -/

def goodState (st : SymbolState) : Prop :=
  (∀ l ∈ st.long_lots, 0 < l.qty) ∧ (∀ l ∈ st.short_lots, 0 < l.qty) ∧
    (st.long_lots = [] ∨ st.short_lots = [])

theorem goodState_default : goodState {} := by
  refine ⟨?_, ?_, Or.inl rfl⟩ <;> intro l hl <;> simp at hl

theorem goodState_getSym (s : List (String × SymbolState))
    (hs : ∀ p ∈ s, goodState p.2) (sym : String) :
    goodState (getSym s sym) := by
  induction s with
  | nil => exact goodState_default
  | cons p rest ih =>
      rw [getSym]
      by_cases hk : p.1 = sym
      · rw [if_pos hk]
        exact hs p (List.mem_cons_self _ _)
      · rw [if_neg hk]
        exact ih (fun q hq => hs q (List.mem_cons_of_mem _ hq))

theorem applyFill_inv (e : Engine) (f : Fill)
    (he : ∀ p ∈ e.state, goodState p.2) :
    ∀ p ∈ (e.applyFill f).1.state, goodState p.2 := by
  obtain ⟨hL, hS, hM⟩ : goodState (getSym e.state f.product) :=
    goodState_getSym _ he _
  intro p hp
  obtain ⟨ts, prod, side, price, qty⟩ := f
  simp only at hL hS hM
  cases side with
  | sell =>
      simp only [Engine.applyFill] at hp
      rcases mem_setSym _ _ _ _ hp with hp1 | rfl
      · rcases mem_setSym _ _ _ _ hp1 with hp2 | rfl
        · exact he p hp2
        · unfold goodState
          simp only
          split_ifs with hleft
          · refine ⟨Strategy.take_queue_pos _ _ _ hL, ?_,
              Or.inl (Strategy.take_empty_of_left_pos _ _ _ hleft)⟩
            intro l hl
            rcases List.mem_append.mp hl with h | h
            · exact hS l h
            · rw [List.mem_singleton] at h
              subst h
              exact hleft
          · refine ⟨Strategy.take_queue_pos _ _ _ hL, hS, ?_⟩
            rcases hM with h | h
            · left
              rw [h, Strategy.take_nil]
            · right
              exact h
      · unfold goodState
        simp only
        split_ifs with hleft
        · refine ⟨Strategy.take_queue_pos _ _ _ hL, ?_,
            Or.inl (Strategy.take_empty_of_left_pos _ _ _ hleft)⟩
          intro l hl
          rcases List.mem_append.mp hl with h | h
          · exact hS l h
          · rw [List.mem_singleton] at h
            subst h
            exact hleft
        · refine ⟨Strategy.take_queue_pos _ _ _ hL, hS, ?_⟩
          rcases hM with h | h
          · left
            rw [h, Strategy.take_nil]
          · right
            exact h
  | buy =>
      simp only [Engine.applyFill] at hp
      rcases mem_setSym _ _ _ _ hp with hp1 | rfl
      · rcases mem_setSym _ _ _ _ hp1 with hp2 | rfl
        · exact he p hp2
        · unfold goodState
          simp only
          split_ifs with hleft
          · refine ⟨?_, Strategy.take_queue_pos _ _ _ hS,
              Or.inr (Strategy.take_empty_of_left_pos _ _ _ hleft)⟩
            intro l hl
            rcases List.mem_append.mp hl with h | h
            · exact hL l h
            · rw [List.mem_singleton] at h
              subst h
              exact hleft
          · refine ⟨hL, Strategy.take_queue_pos _ _ _ hS, ?_⟩
            rcases hM with h | h
            · left
              exact h
            · right
              rw [h, Strategy.take_nil]
      · unfold goodState
        simp only
        split_ifs with hleft
        · refine ⟨?_, Strategy.take_queue_pos _ _ _ hS,
            Or.inr (Strategy.take_empty_of_left_pos _ _ _ hleft)⟩
          intro l hl
          rcases List.mem_append.mp hl with h | h
          · exact hL l h
          · rw [List.mem_singleton] at h
            subst h
            exact hleft
        · refine ⟨hL, Strategy.take_queue_pos _ _ _ hS, ?_⟩
          rcases hM with h | h
          · left
            exact h
          · right
            rw [h, Strategy.take_nil]

theorem applyFills_inv (strat : Strategy) (fs : List Fill) :
    ∀ p ∈ (applyFills (Engine.init strat) fs).state, goodState p.2 := by
  suffices h : ∀ (e : Engine), (∀ p ∈ e.state, goodState p.2) →
      ∀ p ∈ (applyFills e fs).state, goodState p.2 by
    refine h _ ?_
    intro p hp
    simp [Engine.init] at hp
  induction fs with
  | nil => intro e he; exact he
  | cons f rest ih =>
      intro e he
      exact ih _ (applyFill_inv e f he)


/-! ## Further helper lemmas for the claims about process_fills -/

theorem resolvePending_of_pending_nil (e : Engine) (fills : List Fill)
    (h : e.pending = []) : e.resolvePending fills = e := by
  cases fills <;> simp [Engine.resolvePending, h]

theorem resolvePending_idem (e : Engine) (fills : List Fill) :
    (e.resolvePending fills).resolvePending fills = e.resolvePending fills := by
  cases hp : e.pending with
  | nil => rw [resolvePending_of_pending_nil e fills hp,
      resolvePending_of_pending_nil e fills hp]
  | cons p ps =>
      cases fills with
      | nil =>
          have h2 : e.resolvePending [] = e := by
            simp [Engine.resolvePending, hp]
          rw [h2, h2]
      | cons f fs =>
          apply resolvePending_of_pending_nil
          simp [Engine.resolvePending, hp]


/-! ## Pair-level characterization of the selectors (claim C5) -/

theorem takeHead_pairs_bounds (lots : List Lot) (need : ℚ)
    (hpos : ∀ l ∈ lots, 0 < l.qty) :
    ∀ p ∈ (takeHead lots need).1, 0 < p.1 ∧ p.1 ≤ p.2.qty := by
  induction lots generalizing need with
  | nil => simp [takeHead_nil]
  | cons lot rest ih =>
      rcases le_or_lt need 0 with hn | hn
      · rw [takeHead_nonpos _ _ hn]
        simp
      · rcases le_or_lt lot.qty need with h2 | h2
        · rw [takeHead_cons_pop _ _ _ hn h2]
          intro p hp
          rcases List.mem_cons.mp hp with rfl | hp
          · exact ⟨hpos lot (List.mem_cons_self _ _), le_refl _⟩
          · exact ih _ (fun l hl => hpos l (List.mem_cons_of_mem _ hl)) p hp
        · rw [takeHead_cons_keep _ _ _ hn h2]
          intro p hp
          rcases List.mem_singleton.mp hp with rfl
          exact ⟨hn, le_of_lt h2⟩

theorem takeHead_pairs_spec (lots : List Lot) (need : ℚ) :
    (takeHead lots need).1.map Prod.snd
        = lots.take (takeHead lots need).1.length
    ∧ (takeHead lots need).2
        = ((takeHead lots need).1.map
            (fun p => { p.2 with qty := p.2.qty - p.1 })).filter
              (fun l => !(l.qty == 0))
          ++ lots.drop (takeHead lots need).1.length := by
  induction lots generalizing need with
  | nil => simp [takeHead_nil]
  | cons lot rest ih =>
      rcases le_or_lt need 0 with hn | hn
      · rw [takeHead_nonpos _ _ hn]
        simp
      · rcases le_or_lt lot.qty need with h2 | h2
        · rw [takeHead_cons_pop _ _ _ hn h2]
          obtain ⟨ih1, ih2⟩ := ih (need - lot.qty)
          constructor
          · simp only [List.map_cons, List.length_cons, List.take_succ_cons]
            rw [ih1]
          · simp only [List.map_cons, List.filter_cons, List.length_cons,
              List.drop_succ_cons, sub_self]
            simpa using ih2
        · rw [takeHead_cons_keep _ _ _ hn h2]
          have hne : lot.qty - need ≠ 0 := sub_ne_zero.mpr (ne_of_gt h2)
          constructor
          · simp
          · simp [hne]

/-- The queue read in the order a strategy consumes it: head-first for
FIFO, tail-first for LIFO. -/
def consumptionOrder : Strategy → List Lot → List Lot
  | .fifo, lots => lots
  | .lifo, lots => lots.reverse

theorem Strategy.take_pairs_bounds (strat : Strategy) (lots : List Lot)
    (need : ℚ) (hpos : ∀ l ∈ lots, 0 < l.qty) :
    ∀ p ∈ (strat.take lots need).1, 0 < p.1 ∧ p.1 ≤ p.2.qty := by
  cases strat with
  | fifo => exact takeHead_pairs_bounds lots need hpos
  | lifo =>
      exact takeHead_pairs_bounds lots.reverse need
        (fun l hl => hpos l (List.mem_reverse.mp hl))

theorem Strategy.take_pairs_spec (strat : Strategy) (lots : List Lot)
    (need : ℚ) :
    (strat.take lots need).1.map Prod.snd
      = (consumptionOrder strat lots).take (strat.take lots need).1.length
    ∧ consumptionOrder strat (strat.take lots need).2
      = ((strat.take lots need).1.map
          (fun p => { p.2 with qty := p.2.qty - p.1 })).filter
            (fun l => !(l.qty == 0))
        ++ (consumptionOrder strat lots).drop
            (strat.take lots need).1.length := by
  cases strat with
  | fifo => exact takeHead_pairs_spec lots need
  | lifo =>
      have h := takeHead_pairs_spec lots.reverse need
      refine ⟨h.1, ?_⟩
      show ((takeHead lots.reverse need).2.reverse).reverse = _
      rw [List.reverse_reverse]
      exact h.2


/-! ## The claims -/

/-- Claim C6: with the FIFO strategy, from lots opened at `t1<t2<t3` with
quantities `[5,5,5]`, consuming a required quantity of 7 takes lot(t1)
fully (5) and lot(t2) partially (2); the resulting queue holds lot(t2)
with quantity 3 and lot(t3) untouched with quantity 5. -/
theorem claim_C6 :
    takeFIFO [⟨5, 10, 1⟩, ⟨5, 11, 2⟩, ⟨5, 12, 3⟩] 7
      = ([(5, ⟨5, 10, 1⟩), (2, ⟨5, 11, 2⟩)],
         [⟨3, 11, 2⟩, ⟨5, 12, 3⟩]) := by with_unfolding_all decide

/-- Claim C7: with the LIFO strategy, from lots opened at `t1<t2<t3` with
quantities `[5,5,5]`, consuming a required quantity of 7 takes lot(t3)
fully (5) and lot(t2) partially (2); the resulting queue holds lot(t1)
untouched with quantity 5 and lot(t2) with quantity 3. -/
theorem claim_C7 :
    takeLIFO [⟨5, 10, 1⟩, ⟨5, 11, 2⟩, ⟨5, 12, 3⟩] 7
      = ([(5, ⟨5, 12, 3⟩), (2, ⟨5, 11, 2⟩)],
         [⟨5, 10, 1⟩, ⟨3, 11, 2⟩]) := by with_unfolding_all decide

/-- Claim C4 (Scenario A): starting flat for symbol X, with either
strategy, BUY 10@100 opens a long lot 10@100; SELL 4@110 realizes
`(110-100)*4 = 40` leaving the long lot 6@100; SELL 10@90 realizes
`(90-100)*6 = -60` and opens a short lot 4@90; the final state is exactly
one short lot 4@90 with cumulative realized PnL `-20`. -/
theorem claim_C4 (strat : Strategy) :
    (getSym ((Engine.init strat).applyFill ⟨1, "X", .buy, 100, 10⟩).1.state
        "X").long_lots = [⟨10, 100, 1⟩]
    ∧ (getSym ((Engine.init strat).applyFill ⟨1, "X", .buy, 100, 10⟩).1.state
        "X").short_lots = []
    ∧ (((Engine.init strat).applyFill ⟨1, "X", .buy, 100, 10⟩).1.applyFill
        ⟨2, "X", .sell, 110, 4⟩).2.rp = 40
    ∧ (getSym (((Engine.init strat).applyFill ⟨1, "X", .buy, 100, 10⟩).1.applyFill
        ⟨2, "X", .sell, 110, 4⟩).1.state "X").long_lots = [⟨6, 100, 1⟩]
    ∧ ((((Engine.init strat).applyFill ⟨1, "X", .buy, 100, 10⟩).1.applyFill
        ⟨2, "X", .sell, 110, 4⟩).1.applyFill ⟨3, "X", .sell, 90, 10⟩).2.rp = -60
    ∧ (getSym ((((Engine.init strat).applyFill ⟨1, "X", .buy, 100, 10⟩).1.applyFill
        ⟨2, "X", .sell, 110, 4⟩).1.applyFill ⟨3, "X", .sell, 90, 10⟩).1.state
        "X").long_lots = []
    ∧ (getSym ((((Engine.init strat).applyFill ⟨1, "X", .buy, 100, 10⟩).1.applyFill
        ⟨2, "X", .sell, 110, 4⟩).1.applyFill ⟨3, "X", .sell, 90, 10⟩).1.state
        "X").short_lots = [⟨4, 90, 3⟩]
    ∧ (getSym ((((Engine.init strat).applyFill ⟨1, "X", .buy, 100, 10⟩).1.applyFill
        ⟨2, "X", .sell, 110, 4⟩).1.applyFill ⟨3, "X", .sell, 90, 10⟩).1.state
        "X").realized_pnl = -20 := by
  cases strat <;> with_unfolding_all decide

/-- Claim C1 (code evaluation at the failing input): for the batch
BUY 1@100, BUY 1@90, SELL 2@110 on one symbol, the `realized_symbol`
column of the time series sums to 20 while the symbol's final
`realized_total` in the snapshot is 30 — the round-trip property P5 fails
because `apply_fill` reassigns (rather than accumulates) the per-fill
realized delta across matched lots. -/
theorem claim_C1_code_eval :
    (((((Engine.init .fifo).processFills
          [⟨1, "A", .buy, 100, 1⟩, ⟨2, "A", .buy, 90, 1⟩,
           ⟨3, "A", .sell, 110, 2⟩]).2.filter
        (fun row => row.symbol == "A")).map Row.realized_symbol).sum = 20)
    ∧ ((Engine.init .fifo).processFills
          [⟨1, "A", .buy, 100, 1⟩, ⟨2, "A", .buy, 90, 1⟩,
           ⟨3, "A", .sell, 110, 2⟩]).1.snapshotRealized "A" = 30
    ∧ (20 : ℚ) ≠ 30 := by with_unfolding_all decide

/-- Claim C2 (code evaluation at the failing input): with long lots
[1@100, 1@90] open, SELL 2@110 matches both lots for a total realized
delta of `10 + 20 = 30`, yet `apply_fill` returns 20 — the last matched
lot's delta — as this fill's realized delta, and `20 + unrealized` as the
gross delta. -/
theorem claim_C2_code_eval :
    ((applyFills (Engine.init .fifo)
        [⟨1, "A", .buy, 100, 1⟩, ⟨2, "A", .buy, 90, 1⟩]).applyFill
        ⟨3, "A", .sell, 110, 2⟩).2.rp = 20
    ∧ (((Strategy.fifo.take
          (getSym (applyFills (Engine.init .fifo)
            [⟨1, "A", .buy, 100, 1⟩, ⟨2, "A", .buy, 90, 1⟩]).state
            "A").long_lots 2).1.map (matchDelta .sell 110)).sum = 30)
    ∧ ((applyFills (Engine.init .fifo)
        [⟨1, "A", .buy, 100, 1⟩, ⟨2, "A", .buy, 90, 1⟩]).applyFill
        ⟨3, "A", .sell, 110, 2⟩).2.gross = 20
    ∧ (20 : ℚ) ≠ 30 := by with_unfolding_all decide

/-- Claim C3: for every symbol state reached from the initial flat engine
solely by a sequence of `apply_fill` calls (either strategy), the long-lot
queue and the short-lot queue are never both non-empty. -/
theorem claim_C3 (strat : Strategy) (fs : List Fill) (sym : String) :
    (getSym (applyFills (Engine.init strat) fs).state sym).long_lots = []
    ∨ (getSym (applyFills (Engine.init strat) fs).state sym).short_lots = [] :=
  (goodState_getSym _ (applyFills_inv strat fs) sym).2.2

/-- Claim C5: for a queue of strictly-positive lots and a strictly
positive required quantity, both strategies' `take` yields pairs whose
taken quantities sum to `min(required, available)`, leaves the queue with
exactly the remaining quantity and only strictly-positive lots, and when
the queue's total does not cover the requirement it empties the queue and
stops silently.  Moreover the matching is exactly the claimed in-place
mutation: each taken quantity is positive and at most its lot's quantity;
read in consumption order (head-first for FIFO, tail-first for LIFO) the
yielded lots are precisely the first `k` queue entries with their original
quantities, and the queue afterwards is precisely those matched lots each
decremented by its taken amount — dropping the ones whose quantity reaches
zero — followed by the untouched remainder of the queue. -/
theorem claim_C5 (strat : Strategy) (lots : List Lot) (need : ℚ)
    (hpos : ∀ l ∈ lots, 0 < l.qty) (hneed : 0 < need) :
    ((strat.take lots need).1.map Prod.fst).sum
        = min need ((lots.map Lot.qty).sum)
    ∧ ((strat.take lots need).2.map Lot.qty).sum
        = (lots.map Lot.qty).sum - min need ((lots.map Lot.qty).sum)
    ∧ (∀ l ∈ (strat.take lots need).2, 0 < l.qty)
    ∧ ((lots.map Lot.qty).sum ≤ need → (strat.take lots need).2 = [])
    ∧ (∀ p ∈ (strat.take lots need).1, 0 < p.1 ∧ p.1 ≤ p.2.qty)
    ∧ (strat.take lots need).1.map Prod.snd
        = (consumptionOrder strat lots).take (strat.take lots need).1.length
    ∧ consumptionOrder strat (strat.take lots need).2
        = ((strat.take lots need).1.map
            (fun p => { p.2 with qty := p.2.qty - p.1 })).filter
              (fun l => !(l.qty == 0))
          ++ (consumptionOrder strat lots).drop
              (strat.take lots need).1.length := by
  have hsum := Strategy.take_sum strat lots need hpos hneed
  have htot := Strategy.take_total strat lots need
  have hq := Strategy.take_queue_pos strat lots need hpos
  have hb := Strategy.take_pairs_bounds strat lots need hpos
  have hps := Strategy.take_pairs_spec strat lots need
  refine ⟨hsum, by rw [htot, hsum], hq, ?_, hb, hps.1, hps.2⟩
  intro hle
  have h0 : ((strat.take lots need).2.map Lot.qty).sum = 0 := by
    rw [htot, hsum, min_eq_right hle]
    ring
  cases hres : (strat.take lots need).2 with
  | nil => rfl
  | cons l rest =>
      exfalso
      have hl : 0 < l.qty := hq l (by rw [hres]; exact List.mem_cons_self _ _)
      have hrest : 0 ≤ (rest.map Lot.qty).sum :=
        sum_qty_nonneg rest
          (fun x hx => hq x (by rw [hres]; exact List.mem_cons_of_mem _ hx))
      rw [hres] at h0
      simp only [List.map_cons, List.sum_cons] at h0
      linarith

/-- Claim C5 witness: the hypotheses of `claim_C5` hold at a concrete
queue and requirement, and the taken quantities sum as stated there. -/
theorem claim_C5_witness :
    (∀ l ∈ [Lot.mk 5 10 1, Lot.mk 5 11 2], 0 < l.qty) ∧ (0:ℚ) < 7 ∧
    ((Strategy.fifo.take [Lot.mk 5 10 1, Lot.mk 5 11 2] 7).1.map Prod.fst).sum
      = min 7 (([Lot.mk 5 10 1, Lot.mk 5 11 2].map Lot.qty).sum) :=
  ⟨by with_unfolding_all decide, by with_unfolding_all decide,
   (claim_C5 .fifo [Lot.mk 5 10 1, Lot.mk 5 11 2] 7
     (by with_unfolding_all decide) (by with_unfolding_all decide)).1⟩

/-- Claim C8: order reconstruction accepts exactly the four whitelisted
time-sorted action-kind sequences; a group with any other sequence is
dropped in its entirety — it contributes no Order and hence no Fills —
while all remaining groups are processed and emitted unaffected. -/
theorem claim_C8 (gs1 gs2 : List RawOrderGroup) (g : RawOrderGroup)
    (h : g.events.map ActionEvent.action ∉ validSequences) :
    reconstructOrders (gs1 ++ g :: gs2) = reconstructOrders (gs1 ++ gs2)
    ∧ ordersToFills (reconstructOrders (gs1 ++ g :: gs2))
        = ordersToFills (reconstructOrders (gs1 ++ gs2))
    ∧ (∀ g2 : RawOrderGroup, g2.events.map ActionEvent.action ∈ validSequences →
        reconstructOrders (gs1 ++ g2 :: gs2)
          = reconstructOrders gs1 ++ mkOrder g2 :: reconstructOrders gs2)
    ∧ (∀ seq : List Action, seq ∈ validSequences ↔
        (seq = [.sent, .placed, .filled]
         ∨ seq = [.sent, .placed, .cancelling, .cancelled]
         ∨ seq = [.placed, .filled] ∨ seq = [.sent, .filled])) := by
  have hdrop : reconstructOrders (gs1 ++ g :: gs2)
      = reconstructOrders (gs1 ++ gs2) := by
    unfold reconstructOrders
    rw [List.filterMap_append, List.filterMap_append, List.filterMap_cons]
    simp [h]
  refine ⟨hdrop, by rw [hdrop], ?_, ?_⟩
  · intro g2 hg2
    unfold reconstructOrders
    rw [List.filterMap_append, List.filterMap_cons]
    simp [hg2]
  · intro seq
    simp [validSequences]

/-- Claim C8 witness (Scenario C): an order with action sequence
`sent, placed, filled, filled` is not whitelisted, and dropping it leaves
the reconstruction of the surrounding orders unchanged. -/
theorem claim_C8_witness :
    ((RawOrderGroup.mk "42" "A" Side.buy
        [⟨1, .sent, none, none⟩, ⟨2, .placed, none, none⟩,
         ⟨3, .filled, some 10, some 1⟩, ⟨4, .filled, some 10, some 1⟩]).events.map
        ActionEvent.action ∉ validSequences)
    ∧ reconstructOrders
        ([RawOrderGroup.mk "7" "B" Side.sell
            [⟨1, .sent, none, none⟩, ⟨2, .filled, some 3, some 2⟩]]
          ++ (RawOrderGroup.mk "42" "A" Side.buy
              [⟨1, .sent, none, none⟩, ⟨2, .placed, none, none⟩,
               ⟨3, .filled, some 10, some 1⟩, ⟨4, .filled, some 10, some 1⟩]) :: [])
      = reconstructOrders
          ([RawOrderGroup.mk "7" "B" Side.sell
              [⟨1, .sent, none, none⟩, ⟨2, .filled, some 3, some 2⟩]] ++ []) :=
  ⟨by with_unfolding_all decide,
   (claim_C8 [RawOrderGroup.mk "7" "B" Side.sell
       [⟨1, .sent, none, none⟩, ⟨2, .filled, some 3, some 2⟩]] []
     (RawOrderGroup.mk "42" "A" Side.buy
       [⟨1, .sent, none, none⟩, ⟨2, .placed, none, none⟩,
        ⟨3, .filled, some 10, some 1⟩, ⟨4, .filled, some 10, some 1⟩])
     (by with_unfolding_all decide)).1⟩

/-- Claim C9 counterexample: seeding qty = -50 at avg_price = 20 for Y
with no timestamp and processing the single fill BUY 50@18 realizes
`(20-18)*50 = 100`, not 40 as the claim states. -/
theorem claim_C9_counterexample :
    (((Engine.init .fifo).setInitialPosition "Y" (-50) 20 none).processFills
        [⟨0, "Y", .buy, 18, 50⟩]).1.snapshotRealized "Y" = 100
    ∧ ¬ ((((Engine.init .fifo).setInitialPosition "Y" (-50) 20
        none).processFills [⟨0, "Y", .buy, 18, 50⟩]).1.snapshotRealized "Y"
        = 40) := by with_unfolding_all decide

/-- Claim C9 (amended): a pending initial position is resolved, before any
fill is applied, to the earliest fill timestamp minus one minute and
materialized by `set_initial_position` (replacing any existing lots); in
particular seeding qty = -50 at 20 for Y and processing BUY 50@18 at time
T creates a short lot opened at T minus one minute, realizes
`(20-18)*50 = 100`, and leaves Y with no open lots. -/
theorem claim_C9_amended :
    (∀ (e : Engine) (sym : String) (q price : ℚ) (fills : List Fill),
        e.pending = [⟨sym, q, price⟩] → fills ≠ [] →
        e.resolvePending fills =
          { e.setInitialPositionAt sym q price (firstFillTime fills - oneMinute)
              with pending := [] })
    ∧ (∀ (e : Engine) (fills : List Fill),
        e.processFills fills = (e.resolvePending fills).processFills fills)
    ∧ (∀ T : ℤ,
        (getSym (((Engine.init .fifo).setInitialPosition "Y" (-50) 20
            none).resolvePending [⟨T, "Y", .buy, 18, 50⟩]).state "Y").short_lots
          = [⟨50, 20, T - oneMinute⟩]
        ∧ (getSym (((Engine.init .fifo).setInitialPosition "Y" (-50) 20
            none).resolvePending [⟨T, "Y", .buy, 18, 50⟩]).state "Y").long_lots
          = []
        ∧ (getSym ((((Engine.init .fifo).setInitialPosition "Y" (-50) 20
            none).processFills [⟨T, "Y", .buy, 18, 50⟩]).1.state) "Y").short_lots
          = []
        ∧ (getSym ((((Engine.init .fifo).setInitialPosition "Y" (-50) 20
            none).processFills [⟨T, "Y", .buy, 18, 50⟩]).1.state) "Y").long_lots
          = []
        ∧ ((((Engine.init .fifo).setInitialPosition "Y" (-50) 20
            none).processFills [⟨T, "Y", .buy, 18, 50⟩]).1.snapshotRealized "Y")
          = 100) := by
  refine ⟨?_, ?_, ?_⟩
  · rintro ⟨strat, state, rt, pending⟩ sym q price fills h hf
    simp only at h
    subst h
    cases fills with
    | nil => exact absurd rfl hf
    | cons f fs => rfl
  · intro e fills
    unfold Engine.processFills
    rw [resolvePending_idem]
  · intro T
    refine ⟨?_, ?_, ?_, ?_, ?_⟩ <;>
      norm_num [Engine.processFills, Engine.resolvePending,
        Engine.setInitialPosition, Engine.setInitialPositionAt, firstFillTime,
        getSym, setSym, Engine.init, sortByTs, insertByTs, Engine.applyFill,
        Strategy.take, takeFIFO, takeHead, matchDelta, Engine.snapshotRealized,
        Engine.unrealized_total, SymbolState.unrealized]

/-- Claim C9 witness: the hypotheses of the first part of
`claim_C9_amended` hold at a concrete engine and batch, and the pending
seeding resolves there as stated. -/
theorem claim_C9_amended_witness :
    ((Engine.init .fifo).setInitialPosition "Y" (-50) 20 none).pending
        = [⟨"Y", -50, 20⟩]
    ∧ ([(⟨0, "Y", .buy, 18, 50⟩ : Fill)] ≠ [])
    ∧ ((Engine.init .fifo).setInitialPosition "Y" (-50) 20 none).resolvePending
          [⟨0, "Y", .buy, 18, 50⟩]
        = { ((Engine.init .fifo).setInitialPosition "Y" (-50) 20
              none).setInitialPositionAt "Y" (-50) 20
              (firstFillTime [⟨0, "Y", .buy, 18, 50⟩] - oneMinute)
            with pending := [] } :=
  ⟨by with_unfolding_all decide, by with_unfolding_all decide,
   claim_C9_amended.1 ((Engine.init .fifo).setInitialPosition "Y" (-50) 20 none)
     "Y" (-50) 20 [⟨0, "Y", .buy, 18, 50⟩]
     (by with_unfolding_all decide) (by with_unfolding_all decide)⟩

/-- Claim C10: a zero-quantity fill leaves the symbol's lot queues, the
symbol realized total, the realized history and the portfolio realized
total unchanged, yet still sets the symbol's last observed price to the
fill's price and appends one entry to the unrealized-history log; the two
closing conjuncts exhibit a state where such a fill moves the mark price
and thereby changes unrealized PnL from 0 to 10. -/
theorem claim_C10 (e : Engine) (f : Fill) (h : f.qty = 0) :
    (getSym (e.applyFill f).1.state f.product).long_lots
        = (getSym e.state f.product).long_lots
    ∧ (getSym (e.applyFill f).1.state f.product).short_lots
        = (getSym e.state f.product).short_lots
    ∧ (getSym (e.applyFill f).1.state f.product).realized_pnl
        = (getSym e.state f.product).realized_pnl
    ∧ (getSym (e.applyFill f).1.state f.product).rpnl_hist
        = (getSym e.state f.product).rpnl_hist
    ∧ (e.applyFill f).1.realized_total = e.realized_total
    ∧ (getSym (e.applyFill f).1.state f.product).last_price = some f.price
    ∧ (getSym (e.applyFill f).1.state f.product).upnl_hist
        = (getSym e.state f.product).upnl_hist
          ++ [(getSym (e.applyFill f).1.state f.product).unrealized]
    ∧ (getSym ((⟨.fifo, [("Z", ⟨[⟨1, 100, 0⟩], [], 0, [], [], some 100⟩)], 0,
          []⟩ : Engine).applyFill ⟨1, "Z", .buy, 110, 0⟩).1.state
        "Z").unrealized = 10
    ∧ (getSym (⟨.fifo, [("Z", ⟨[⟨1, 100, 0⟩], [], 0, [], [], some 100⟩)], 0,
          []⟩ : Engine).state "Z").unrealized = 0 := by
  obtain ⟨ts, prod, side, price, qty⟩ := f
  simp only at h
  subst h
  have htake := Strategy.take_nonpos e.strategy
  cases side <;>
    refine ⟨?_, ?_, ?_, ?_, ?_, ?_, ?_, by with_unfolding_all decide,
      by with_unfolding_all decide⟩ <;>
    simp [Engine.applyFill, htake _ _ (le_refl (0:ℚ)), getSym_setSym_self,
      SymbolState.unrealized]

/-- Claim C10 witness: the hypothesis of `claim_C10` holds at a concrete
zero-quantity fill, and the last observed price is set there as stated. -/
theorem claim_C10_witness :
    (Fill.mk 1 "Z" Side.buy 110 0).qty = 0
    ∧ (getSym ((Engine.init .fifo).applyFill
        (Fill.mk 1 "Z" Side.buy 110 0)).1.state
        (Fill.mk 1 "Z" Side.buy 110 0).product).last_price
      = some (Fill.mk 1 "Z" Side.buy 110 0).price :=
  ⟨rfl, (claim_C10 (Engine.init .fifo) (Fill.mk 1 "Z" Side.buy 110 0)
      rfl).2.2.2.2.2.1⟩

end PnlKit
